import Mathlib

/-!
Verification development for a Windows MSYS2-style package manager.

The definitions below are a shallow embedding of the program's source:
strings are modelled as lists of characters (`Str`), Rust's fallible
functions return `Option`/`Except`-like values, `process::exit(1)` is an
`abort` outcome, and panics are an explicit `panicked` outcome.
-/

set_option maxHeartbeats 1000000

namespace Pwm

/-- Strings are modelled as lists of characters.  Rust compares `String`s
byte-wise in UTF-8, which coincides with code-point order on char lists. -/
abbrev Str := List Char

/-- Coerce a Lean string literal into the model. -/
def str (s : String) : Str := s.data

/-- `value.split('\t')` from Rust: split a string on the tab character,
keeping empty pieces (an empty input yields one empty piece). -/
def splitTab (s : Str) : List Str := s.splitOn '\t'

/-- `s.split(", ")` from Rust: split on the two-character separator `", "`,
non-overlapping, left to right. -/
def splitCS : Str → List Str
  | [] => [[]]
  | ',' :: ' ' :: rest => [] :: splitCS rest
  | c :: rest =>
    match splitCS rest with
    | [] => [[c]]
    | r :: rs => (c :: r) :: rs

/-- `join("\t")` from Rust (`cols.join("\t")`). -/
def joinTab (cols : List Str) : Str := List.intercalate ['\t'] cols

/-- `join(", ")` from Rust (`names.join(", ")`). -/
def joinCS (cols : List Str) : Str := List.intercalate (str ", ") cols

/-- Lexicographic strict order on `Str`, matching Rust's `Ord for String`. -/
def strLt : Str → Str → Bool
  | [], [] => false
  | [], _ :: _ => true
  | _ :: _, [] => false
  | a :: as, b :: bs => a < b || (a == b && strLt as bs)

/-- Three-way comparison on `Str`, matching Rust's `Ord for String`. -/
def strCmp : Str → Str → Ordering
  | [], [] => .eq
  | [], _ :: _ => .lt
  | _ :: _, [] => .gt
  | a :: as, b :: bs =>
    if a < b then .lt else if b < a then .gt else strCmp as bs

/-- The static repository set (`enum Repository` in `repositories.rs`). -/
inductive Repository where
  | msys
  | mingw64
deriving DecidableEq, Repr

/-- `Repository::name`. -/
def Repository.rname : Repository → Str
  | .msys => str "msys"
  | .mingw64 => str "mingw64"

/-- `Repository::url`. -/
def Repository.rurl : Repository → Str
  | .msys => str "https://repo.msys2.org/msys/x86_64/"
  | .mingw64 => str "https://repo.msys2.org/mingw/x86_64/"

/-- `Repository::enabled()`: the static vector `[Msys, Mingw64]`. -/
def Repository.enabled : List Repository := [.msys, .mingw64]

/-- `Repository::from(name)`: find the enabled repository with this name. -/
def Repository.fromName (name : Str) : Option Repository :=
  Repository.enabled.find? (fun r => r.rname == name)

/-- The compression algorithms (`enum Compression` in `utils.rs`). -/
inductive Compression where
  | ZSTD
  | XZ
  | GZ
deriving DecidableEq, Repr

/-- `Compression::extension`. -/
def Compression.extension : Compression → Str
  | .ZSTD => str "zst"
  | .XZ => str "xz"
  | .GZ => str "gz"

/-- The static vector `ALL_COMPRESSIONS`. -/
def Compression.all : List Compression := [.ZSTD, .XZ, .GZ]

/-- `Compression::from_extension`. -/
def Compression.from_extension (ext : Str) : Option Compression :=
  Compression.all.find? (fun c => c.extension == ext)

/-- The package record (`struct Package` in `packages.rs`). -/
structure Package where
  repository : Repository
  names : List Str
  version : Str
  compression : Option Compression
  arch : Option Str
  dependencies : Option (List Str)
deriving DecidableEq, Repr

/-- `Package::name()`: the first element of `names` (canonical name). -/
def Package.pname (p : Package) : Str := p.names.headD []

/-- `Package::matches(name)`: any element of `names` equals the query. -/
def Package.matches (p : Package) (name : Str) : Bool :=
  p.names.any (fun n => n == name)

/-- `PartialEq for Package`: equality uses only `(name, version)`. -/
def pkgEq (a b : Package) : Bool :=
  a.pname == b.pname && a.version == b.version

/-- `Ord for Package`: by canonical name, then by version. -/
def pkgCmp (a b : Package) : Ordering :=
  (strCmp a.pname b.pname).then (strCmp a.version b.version)

/-- `BTreeSet::contains` / `Vec::contains` on packages (uses `PartialEq`). -/
def pkgMem (p : Package) (l : List Package) : Bool :=
  l.any (fun q => pkgEq q p)

/-- `BTreeSet<Package>::insert`: insert into the sorted list unless an
equal element (by `(name, version)`) is already present (the old element
is kept in that case). -/
def btreeInsert (x : Package) : List Package → List Package
  | [] => [x]
  | y :: ys =>
    match pkgCmp x y with
    | .lt => x :: y :: ys
    | .eq => y :: ys
    | .gt => y :: btreeInsert x ys

/-- `collect::<BTreeSet<Package>>()` over an iteration order. -/
def btreeOfList (l : List Package) : List Package :=
  l.foldl (fun s x => btreeInsert x s) []

/-- `TryFrom<&str> for Package` (`packages.rs`): split the line on tabs,
require at least three fields, resolve the repository, split the names on
`", "`, resolve the optional compression extension, take the optional
arch, and collect everything after the first `"+"` field as dependencies.
`none` models `Err(ParseError)`. -/
def Package.tryFrom (value : Str) : Option Package :=
  let cols := splitTab value
  if cols.length < 3 then none
  else
    match Repository.fromName (cols.getD 0 []) with
    | none => none
    | some repository =>
      let names := splitCS (cols.getD 1 [])
      let version := cols.getD 2 []
      let compression? : Option (Option Compression) :=
        match cols.get? 3 with
        | some col =>
          match Compression.from_extension col with
          | some c => some (some c)
          | none => none
        | none => some none
      match compression? with
      | none => none
      | some compression =>
        let arch := cols.get? 4
        let dependencies :=
          (cols.findIdx? (fun col => col == str "+")).map
            (fun pos => cols.drop (pos + 1))
        some ⟨repository, names, version, compression, arch, dependencies⟩

/-- `From<&Package> for String` (`packages.rs`): the formatted record line. -/
def Package.format (p : Package) : Str :=
  joinTab
    ([p.repository.rname, joinCS p.names, p.version]
      ++ (match p.compression with | some c => [c.extension] | none => [])
      ++ (match p.arch with | some a => [a] | none => [])
      ++ (match p.dependencies with | some deps => str "+" :: deps | none => []))

/-- `Package::url()` (via `url_from`): defined only when both compression
and arch are present:
`{repo.url}{name}-{version}-{arch}.pkg.tar.{ext}`. -/
def Package.url (p : Package) : Option Str :=
  match p.compression with
  | some compression =>
    match p.arch with
    | some arch =>
      some (p.repository.rurl ++ p.pname ++ str "-" ++ p.version ++ str "-"
        ++ arch ++ str ".pkg.tar." ++ compression.extension)
    | none => none
  | none => none

/-! ### Latest-version query (`available_packages.rs`) -/

/-- Rust's `Iterator::max_by_key` on `&it.version`: fold keeping the current
maximum, replaced whenever a later element's key is not smaller (so the last
maximal element wins). -/
def maxByVersionLast (l : List Package) : Option Package :=
  l.foldl
    (fun acc x =>
      match acc with
      | none => some x
      | some b => if strLt x.version b.version then some b else some x)
    none

/-- `latest_version(name, packages)`: the packages are iterated in the
`BTreeSet` order of the list; those matching the name are kept and the one
with the maximal version is returned. -/
def latestVersion (name : Str) (packages : List Package) : Option Package :=
  maxByVersionLast (packages.filter (fun p => p.matches name))

/-! ### Codec façade (`utils.rs`) -/

inductive DResult where
  | ok (bytes : List Nat)
  | err
  | panicked
deriving DecidableEq, Repr

/-- The external decompression libraries (out-of-scope collaborators); each
either produces bytes or reports a library error. -/
structure Codecs where
  zstdDecode : List Nat → Option (List Nat)
  xzDecode : List Nat → Option (List Nat)
  inflateBytes : List Nat → Option (List Nat)

/-- `Compression::decompress`: dispatch on the algorithm.  The GZIP case
takes the slice `&data[10..]` — which panics when the input is shorter than
10 bytes — before running raw deflate on the remainder. -/
def decompress (cs : Codecs) : Compression → List Nat → DResult
  | .ZSTD, data =>
    match cs.zstdDecode data with
    | some b => .ok b
    | none => .err
  | .XZ, data =>
    match cs.xzDecode data with
    | some b => .ok b
    | none => .err
  | .GZ, data =>
    if data.length < 10 then .panicked
    else
      match cs.inflateBytes (data.drop 10) with
      | some b => .ok b
      | none => .err

/-- A concrete codec instantiation used for closed evaluations. -/
def trivialCodecs : Codecs := ⟨fun _ => none, fun _ => none, fun _ => none⟩

/-! ### Installed-packages store (`installed_packages.rs`) -/

/-- `replace_package`, at the level of the text lines of the
installed-catalog file: the file is read as raw lines (without ZSTD
decoding), every line is parsed (a parse failure propagates), and for a
record whose names contain the new package's name the *current* record's
formatted form is pushed; the lines are then written back.  `none` models a
propagated error. -/
def replaceLines (input : List Str) (package : Package) : Option (List Str) :=
  input.mapM (fun line =>
    (Package.tryFrom line).map (fun current =>
      if current.matches package.pname then current.format else line))

/-! ### Available-packages cache synchronization (`available_packages.rs`) -/

/-- One repository section of the available catalog (`struct Packages`
with its `RepositoryVersion`). -/
structure RepoSection where
  repo : Repository
  etag : Str
  list : List Package
deriving DecidableEq, Repr

/-- The environment of one `get_packages` run: what the filesystem and the
network would deliver at each read. -/
structure SyncEnv where
  recent : Bool
  cacheRead : Option (List Package)
  cacheVersions : List (Repository × Str)
  remoteEtag : Repository → Option Str
  remotePkgs : Repository → Option (Str × List Package)
  saveOk : Bool

/-- The observable outcome of `get_packages`: the sections written to the
catalog file (if any write happened and succeeded) and the returned package
set, or `abort` for `process::exit(1)`. -/
inductive SyncResult where
  | ret (saved : Option (List RepoSection)) (packages : List Package)
  | abort
deriving DecidableEq, Repr

/-- `cache_versions.get(repository)` on the parsed header map. -/
def lookupVer (cacheVersions : List (Repository × Str)) (r : Repository) : Option Str :=
  (cacheVersions.find? (fun q => q.1 == r)).map (fun q => q.2)

/-- `save_and_return_packages`: persist (a failed save only prints) and
return the union of the section lists collected into a `BTreeSet`. -/
def saveAndReturn (env : SyncEnv) (sections : List RepoSection) : SyncResult :=
  .ret (if env.saveOk then some sections else none)
    (btreeOfList ((sections.map (fun sec => sec.list)).flatten))

/-- `get_packages_from_repositories`: fetch every enabled repository; any
fetch failure, or a failed save, aborts with exit code 1. -/
def getPackagesFromRepositories (env : SyncEnv) : SyncResult :=
  match Repository.enabled.mapM
      (fun r => (env.remotePkgs r).map (fun q => RepoSection.mk r q.1 q.2)) with
  | none => .abort
  | some sections =>
    if env.saveOk then .ret (some sections) (btreeOfList ((sections.map (fun sec => sec.list)).flatten))
    else .abort

/-- The enabled repositories in `BTreeMap` key order (by name,
`"mingw64" < "msys"`). -/
def Repository.sorted : List Repository := [.mingw64, .msys]

/-- `get_packages(path)` (`available_packages.rs`), with every filesystem
and network interaction drawn from the environment.  The control flow
mirrors the source: freshness shortcut, `repositories_to_sync` computation,
and the four cases (cache hit, sync-all, partial sync, cold start). -/
def getPackages (env : SyncEnv) : SyncResult :=
  match (if env.recent then env.cacheRead else none) with
  | some packages => .ret none packages
  | none =>
    let cacheVersions := env.cacheVersions
    let repositoriesToSync := Repository.enabled.filter (fun repository =>
      match lookupVer cacheVersions repository with
      | some cacheVersion =>
        match env.remoteEtag repository with
        | some repoEtag => repoEtag != cacheVersion
        | none => false
      | none => true)
    if repositoriesToSync.isEmpty then
      match env.cacheRead with
      | some packages => .ret none packages
      | none => getPackagesFromRepositories env
    else
      if repositoriesToSync.length == Repository.enabled.length then
        let syncedRepositoryPackages : List (Option RepoSection) :=
          Repository.enabled.map (fun repository =>
            (env.remotePkgs repository).map (fun q => RepoSection.mk repository q.1 q.2))
        if syncedRepositoryPackages.any (fun x => x.isNone) then
          match env.cacheRead with
          | some packages =>
            let successfullySynced := syncedRepositoryPackages.filterMap id
            if successfullySynced.isEmpty then .ret none packages
            else
              -- `other_repositories`: the filter keeps exactly the repositories
              -- that synced successfully
              let otherRepositories := Repository.enabled.filter (fun repository =>
                successfullySynced.any (fun sec => sec.repo == repository))
              -- `other_repository_packages`: the `for_each` discards the value
              -- computed by `remove(..).or_else(..)`, so the map stays empty
              let otherRepositoryPackages : List RepoSection :=
                (packages.filter (fun p => otherRepositories.contains p.repository)).foldl
                  (fun m _ => m) []
              saveAndReturn env (successfullySynced ++ otherRepositoryPackages)
          | none => .abort
        else
          saveAndReturn env (syncedRepositoryPackages.filterMap id)
      else
        match env.cacheRead with
        | some packages =>
          let packageMap := fun repository =>
            packages.filter (fun p => p.repository == repository)
          let result := Repository.enabled.foldl
            (fun (acc : List RepoSection × List (Repository × Str) × List Repository)
                repository =>
              let fullList := acc.1
              let successfulSyncs := acc.2.1
              let remainingKeys := acc.2.2
              let synced :=
                if repositoriesToSync.contains repository then env.remotePkgs repository
                else none
              match synced with
              | some q =>
                (fullList ++ [RepoSection.mk repository q.1 q.2],
                  successfulSyncs ++ [(repository, q.1)], remainingKeys)
              | none =>
                -- `package_map.remove(repository)` takes the key out of the map
                let values := packageMap repository
                let remainingKeys := remainingKeys.filter (fun r => !(r == repository))
                match lookupVer cacheVersions repository with
                | some cacheVersion =>
                  if values.isEmpty then (fullList, successfulSyncs, remainingKeys)
                  else (fullList ++ [RepoSection.mk repository cacheVersion values],
                    successfulSyncs, remainingKeys)
                | none => (fullList, successfulSyncs, remainingKeys))
            ([], [], Repository.sorted.filter (fun r => !(packageMap r).isEmpty))
          if result.2.1.isEmpty then
            .ret none (btreeOfList
              (((Repository.sorted.filter (fun r => result.2.2.contains r)).map
                packageMap).flatten))
          else
            saveAndReturn env result.1
        | none => getPackagesFromRepositories env

/-! ### Installer transactions (`installer.rs`) -/

inductive Ev where
  | markerWrite
  | tarMutation
  | catalogAppend
  | catalogReplace
  | markerDelete
deriving DecidableEq, Repr

inductive TxResult where
  | ok
  | err
  | panicked
deriving DecidableEq, Repr

/-- Outcomes of the fallible steps inside one per-package transaction, and
the number of filesystem mutations its tar extraction performs. -/
structure TxEnv where
  writeOk : Bool
  downloadOk : Bool
  decompressOk : Bool
  extractOk : Bool
  recordOk : Bool
  removeOk : Bool
  tarMutations : Nat

/-- The observable outcome of one transaction: the ordered trace of
filesystem effects, the returned result (or a panic), and the final content
of the pending-marker file. -/
structure TxOut where
  trace : List Ev
  result : TxResult
  marker : Option (List Str)
deriving DecidableEq, Repr

/-- `install_package(root, package, setup)`: write the pending marker
(unless in setup mode), download (`package.url().unwrap()` panics on a
catalog-only record), decompress (`package.compression.unwrap()`), extract
the tar, then append to the installed catalog and delete the marker.  A
failing initial marker write is modelled as leaving no marker file; a tar
whose `entries()` call fails produces no mutation. -/
def installPackage (package : Package) (setup : Bool) (env : TxEnv) : TxOut :=
  let markerContent := [str "install", package.format]
  if setup = false ∧ env.writeOk = false then ⟨[], .err, none⟩
  else
    let t1 : List Ev := if setup then [] else [.markerWrite]
    let m1 : Option (List Str) := if setup then none else some markerContent
    match package.url with
    | none => ⟨t1, .panicked, m1⟩
    | some _ =>
      if env.downloadOk = false then ⟨t1, .err, m1⟩
      else
        match package.compression with
        | none => ⟨t1, .panicked, m1⟩
        | some _ =>
          if env.decompressOk = false then ⟨t1, .err, m1⟩
          else if env.extractOk = false then ⟨t1, .err, m1⟩
          else
            let t2 := t1 ++ List.replicate env.tarMutations .tarMutation
            if setup then ⟨t2, .ok, m1⟩
            else if env.recordOk = false then ⟨t2, .err, m1⟩
            else
              let t3 := t2 ++ [.catalogAppend]
              if env.removeOk = false then ⟨t3, .err, m1⟩
              else ⟨t3 ++ [.markerDelete], .ok, none⟩

/-- `update_package(root, package)`: as `install_package` but the marker
holds `"update"`, the catalog mutation is a replace, and there is no setup
mode. -/
def updatePackage (package : Package) (env : TxEnv) : TxOut :=
  let markerContent := [str "update", package.format]
  if env.writeOk = false then ⟨[], .err, none⟩
  else
    let t1 : List Ev := [.markerWrite]
    let m1 : Option (List Str) := some markerContent
    match package.url with
    | none => ⟨t1, .panicked, m1⟩
    | some _ =>
      if env.downloadOk = false then ⟨t1, .err, m1⟩
      else
        match package.compression with
        | none => ⟨t1, .panicked, m1⟩
        | some _ =>
          if env.decompressOk = false then ⟨t1, .err, m1⟩
          else if env.extractOk = false then ⟨t1, .err, m1⟩
          else
            let t2 := t1 ++ List.replicate env.tarMutations .tarMutation
            if env.recordOk = false then ⟨t2, .err, m1⟩
            else
              let t3 := t2 ++ [.catalogReplace]
              if env.removeOk = false then ⟨t3, .err, m1⟩
              else ⟨t3 ++ [.markerDelete], .ok, none⟩

/-- Event `a` occurs strictly before every occurrence of event `b` in the
trace. -/
def precedes (a b : Ev) (tr : List Ev) : Prop :=
  ∀ i : Nat, tr.get? i = some b → ∃ j : Nat, j < i ∧ tr.get? j = some a

/-! ### Dependency resolver (`dependencies.rs`) -/

/-- `dependency_name`: the first piece of the regex split on `[=>~#*]`
(the prefix before the first such character), with `"sh"` remapped to
`"bash"`. -/
def dependencyName (s : Str) : Str :=
  let t := s.takeWhile (fun c =>
    !(c == '=' || c == '>' || c == '~' || c == '#' || c == '*'))
  if t == str "sh" then str "bash" else t

/-- The missing dependencies of the front package: resolve each dependency
token through `latest_version`, drop the unresolvable ones, drop those
already installed or processed; `none` when nothing is missing (or the
dependencies are unknown). -/
def missingDeps (p : Package) (installed processed available : List Package) :
    Option (List Package) :=
  p.dependencies.bind (fun deps =>
    let resolved := deps.filterMap (fun dep =>
      latestVersion (dependencyName dep) available)
    let missing := resolved.filter (fun d =>
      !(pkgMem d installed) && !(pkgMem d processed))
    if missing.isEmpty then none else some missing)

/-- Rust's `as i8` cast of a `usize`. -/
def i8cast (n : Nat) : Int :=
  let m := n % 256
  if m < 128 then (m : Int) else (m : Int) - 256

/-- The `sort_by_key` key: `-1 * (declared dependency count as i8)` with
`i8` wrapping semantics (`-1 * (-128)` wraps back to `-128`). -/
def depCountKey (p : Package) : Int :=
  let x := i8cast ((p.dependencies.map List.length).getD 0)
  if x = -128 then -128 else -x

/-- The resolver's loop state: the work deque, the append-only processed
list, and the snapshot set of previously seen deque configurations. -/
structure RState where
  deque : List Package
  processed : List Package
  snaps : List Str
deriving Repr

/-- One iteration of the resolver loop (on a non-empty deque): always
record the snapshot; if it is new and the front package has missing
dependencies, sort them by descending declared-dependency count and move
each to the front of the deque; otherwise pop the front into `processed`. -/
def stepDeps (installed available : List Package) (s : RState) : RState :=
  match s.deque with
  | [] => s
  | p :: rest =>
    let deps := missingDeps p installed s.processed available
    let snapshot := joinCS (s.deque.map Package.pname)
    let isNew := !(s.snaps.contains snapshot)
    let snaps' := if isNew then snapshot :: s.snaps else s.snaps
    if isNew && deps.isSome then
      let ds := (deps.getD []).mergeSort
        (fun a b => decide (depCountKey a ≤ depCountKey b))
      let deque' := ds.foldl
        (fun dq d => d :: dq.filter (fun x => !(pkgEq x d))) s.deque
      ⟨deque', s.processed, snaps'⟩
    else
      ⟨rest, if pkgMem p s.processed then s.processed else s.processed ++ [p], snaps'⟩

/-- The resolver loop with explicit fuel: `none` means the fuel ran out. -/
def runDeps (installed available : List Package) : Nat → RState → Option (List Package)
  | 0, _ => none
  | n + 1, s =>
    match s.deque with
    | [] => some s.processed
    | _ :: _ => runDeps installed available n (stepDeps installed available s)

/-- The finite universe every deque element is drawn from: the roots and
the available packages. -/
def pkgUniverse (roots available : List Package) : Finset Package :=
  roots.toFinset ∪ available.toFinset

/-- A bound on the deque length along the whole run. -/
def dequeBound (roots available : List Package) : Nat :=
  roots.length + (pkgUniverse roots available).card

/-- All lists over a finite set with length at most `n`. -/
def listsUpTo (A : Finset Package) : Nat → Finset (List Package)
  | 0 => {[]}
  | n + 1 => {[]} ∪ (A ×ˢ listsUpTo A n).image (fun q => q.1 :: q.2)

/-- The finite set of snapshot strings reachable from the given inputs. -/
def snapUniverse (roots available : List Package) : Finset Str :=
  (listsUpTo (pkgUniverse roots available) (dequeBound roots available)).image
    (fun l => joinCS (l.map Package.pname))

/-- The loop variant: fresh snapshot strings weighted by the deque bound,
plus the deque length. -/
def measureR (roots available : List Package) (s : RState) : Nat :=
  let S := snapUniverse roots available
  (S.card - (S.filter (fun t => s.snaps.contains t = true)).card)
      * (dequeBound roots available + 1)
    + s.deque.length

/-- The resolver loop invariant: deque elements live in the universe and
each value occurs no more often than in the roots (or once). -/
def RInv (roots available : List Package) (s : RState) : Prop :=
  (∀ x ∈ s.deque, x ∈ pkgUniverse roots available) ∧
  (∀ x : Package, s.deque.count x ≤ max (roots.count x) 1)

/-! ### Update command (`mod.rs` and `installer.rs`) -/

/-- The interactive environment of a CLI run: the answer the abort prompt
would resolve to, and the outcome of each per-package update transaction. -/
structure CmdEnv where
  abortAnswerYes : Bool
  updateOk : Package → Bool

/-- `get_packages` in `mod.rs`: resolve each requested name to its latest
available version, collecting the results into a `BTreeSet`; depending on
how many names were not found and on the prompt answer, the run may abort
(`none`). -/
def resolveRequested (env : CmdEnv) (names : List Str) (available : List Package) :
    Option (List Package) :=
  let step := names.foldl
    (fun (acc : List Str × List Package) name =>
      match latestVersion name available with
      | some package => (acc.1, btreeInsert package acc.2)
      | none => (acc.1 ++ [name], acc.2))
    ([], [])
  let notFound := step.1
  let packages := step.2
  match notFound.length with
  | 0 => some packages
  | 1 => if packages.isEmpty || env.abortAnswerYes then none else some packages
  | n + 2 => if packages.length ≤ n + 2 || env.abortAnswerYes then none else some packages

/-- `installer::update`: iterate the resolved set; a package already in the
installed set (by `(name, version)`) is skipped; otherwise `update_package`
is entered, and a failing transaction exits the process. -/
def updateLoop (env : CmdEnv) (installed : List Package) :
    List Package → List Package → Option (List Package)
  | [], entered => some entered
  | p :: rest, entered =>
    if pkgMem p installed then updateLoop env installed rest entered
    else if env.updateOk p then updateLoop env installed rest (entered ++ [p])
    else none

/-- The `update` command (`update_packages` in `mod.rs` followed by
`installer::update`): returns the list of packages for which
`update_package` was entered, in order, or `none` when the run aborted. -/
def updateCmd (env : CmdEnv) (names : List Str) (installed available : List Package) :
    Option (List Package) :=
  match resolveRequested env names available with
  | none => none
  | some packages => updateLoop env installed packages []

/-! ### Canonical-form side conditions for the formatting round-trip -/

/-- The side conditions under which formatting round-trips: no tab inside
any field, no field that re-parses as the `"+"` dependency marker, and no
absent field in the middle of the column list (which would shift later
columns on re-parsing). -/
def Package.canonical (p : Package) : Prop :=
  (∀ n ∈ p.names, '\t' ∉ n) ∧
  '\t' ∉ p.version ∧
  (∀ a ∈ p.arch, '\t' ∉ a) ∧
  (∀ ds ∈ p.dependencies, ∀ d ∈ ds, '\t' ∉ d) ∧
  p.names ≠ [str "+"] ∧
  p.version ≠ str "+" ∧
  p.arch ≠ some (str "+") ∧
  (p.arch.isSome → p.compression.isSome) ∧
  (p.dependencies.isSome → p.arch.isSome)

/-! ### Concrete fixtures for closed evaluations -/

def msysOld : Package := ⟨.msys, [str "m1"], str "1.0", none, none, none⟩

def msysNew : Package := ⟨.msys, [str "m1"], str "1.1", none, none, none⟩

def mingwOld : Package := ⟨.mingw64, [str "w1"], str "2.0", none, none, none⟩

/-- A run where both cached repositories are stale: the msys sync succeeds
with a new ETag `"3"` and package list `[msysNew]`, while the mingw64 sync
fails; the cache holds one package per repository. -/
def partialFailEnv : SyncEnv where
  recent := false
  cacheRead := some [msysOld, mingwOld]
  cacheVersions := [(Repository.msys, str "1"), (Repository.mingw64, str "2")]
  remoteEtag := fun r => match r with | .msys => some (str "3") | .mingw64 => some (str "4")
  remotePkgs := fun r => match r with
    | .msys => some (str "3", [msysNew])
    | .mingw64 => none
  saveOk := true

def txAllOk : TxEnv := ⟨true, true, true, true, true, true, 2⟩

def txNoWrite : TxEnv := ⟨false, true, true, true, true, true, 2⟩

def fullPkg : Package := ⟨.msys, [str "a"], str "1", some .ZSTD, some (str "any"), some []⟩

def catalogOnlyPkg : Package := ⟨.msys, [str "a"], str "1", none, none, none⟩

def aliasPkg : Package := ⟨.msys, [str "b", str "a"], str "1", none, none, none⟩

/-! ## Theorems -/

/-- C1: at the failing input (both repositories stale, msys syncs with new
ETag `"3"`, mingw64's sync fails), `get_packages` writes a catalog holding
only the freshly synced msys section and returns only the new msys package:
the cached mingw64 record and its cached ETag are dropped from both the
written file and the returned set, although the cache was readable. -/
theorem C1_partial_failure_drops_cached_section :
    getPackages partialFailEnv =
      .ret (some [⟨.msys, str "3", [msysNew]⟩]) [msysNew] := by
  decide

/-- C2: `replace_package` at a concrete catalog.  Replacing the installed
record `msys\ta\t1` by the new record `a` at version `2` leaves the old
line unchanged (the code pushes the formatted form of the *current* record,
so the new one never lands), and on a catalog produced by the append
protocol (leading blank line) the whole operation fails with a parse
error. -/
theorem C2_replace_keeps_old_record :
    replaceLines [str "msys\ta\t1"] ⟨.msys, [str "a"], str "2", none, none, none⟩ =
        some [str "msys\ta\t1"] ∧
      replaceLines [str "", str "msys\ta\t1"]
          ⟨.msys, [str "a"], str "2", none, none, none⟩ =
        none := by
  constructor <;> decide

/-- C3 (counterexample): parsing the scenario line yields a package whose
artifact URL is *present* — the fifth column `"+"` is taken as the arch —
contradicting the claim that the URL is absent. -/
theorem C3_url_not_absent :
    ((Package.tryFrom
          (str "msys\tname\tversion\tzst\t+\tdep1\tdep2=1\tdep3>3.2\tdep4")).bind
        Package.url) ≠
      none := by
  decide

/-- C3 (amended): parsing the record line yields repository msys, canonical
name `name`, version `version`, ZSTD compression and the four dependency
tokens, but the arch field is parsed as `"+"`, so an artifact URL is
present (with `+` as its arch segment). -/
theorem C3_parse_line_with_dependencies :
    Package.tryFrom (str "msys\tname\tversion\tzst\t+\tdep1\tdep2=1\tdep3>3.2\tdep4") =
        some ⟨.msys, [str "name"], str "version", some .ZSTD, some (str "+"),
          some [str "dep1", str "dep2=1", str "dep3>3.2", str "dep4"]⟩ ∧
      ((Package.tryFrom
            (str "msys\tname\tversion\tzst\t+\tdep1\tdep2=1\tdep3>3.2\tdep4")).bind
          Package.url) =
        some (str "https://repo.msys2.org/msys/x86_64/name-version-+.pkg.tar.zst") := by
  constructor <;> decide

/-- C8 (counterexample): on the empty input, GZIP decompression panics
(the slice `&data[10..]` is out of bounds), so `decompress` is not total. -/
theorem C8_gzip_short_input_panics :
    decompress trivialCodecs .GZ [] = .panicked := by
  decide

/-- C8 (amended): `decompress` never panics — returning either the
decompressed bytes or a `DecompressionError` — for ZSTD and XZ on every
input, and for GZIP on every input of at least 10 bytes (the fixed member
header that it skips before running raw deflate). -/
theorem C8_decompress_total (cs : Codecs) (algo : Compression) (data : List Nat)
    (h : algo = .GZ → 10 ≤ data.length) :
    (∃ b, decompress cs algo data = .ok b) ∨ decompress cs algo data = .err := by
  cases algo with
  | ZSTD =>
    cases hz : cs.zstdDecode data with
    | some b => exact .inl ⟨b, by simp [decompress, hz]⟩
    | none => exact .inr (by simp [decompress, hz])
  | XZ =>
    cases hz : cs.xzDecode data with
    | some b => exact .inl ⟨b, by simp [decompress, hz]⟩
    | none => exact .inr (by simp [decompress, hz])
  | GZ =>
    have hlen : ¬ data.length < 10 := by
      have := h rfl
      omega
    cases hz : cs.inflateBytes (data.drop 10) with
    | some b => exact .inl ⟨b, by simp [decompress, hlen, hz]⟩
    | none => exact .inr (by simp [decompress, hlen, hz])

/-- C8 (witness): the amended theorem applied at ZSTD on the empty input
with the trivial codecs. -/
theorem C8_decompress_total_witness :
    (∃ b, decompress trivialCodecs .ZSTD [] = .ok b) ∨
      decompress trivialCodecs .ZSTD [] = .err :=
  C8_decompress_total trivialCodecs .ZSTD [] (by decide)

/-- C5 (counterexample): when the initial pending-marker write itself fails
(for example the disk is full), `install_package` fails but no marker
exists afterwards, contradicting the claim that after every failed
`install_package` the marker exists with one record. -/
theorem C5_failed_write_leaves_no_marker :
    (installPackage fullPkg false txNoWrite).result = .err ∧
      (installPackage fullPkg false txNoWrite).marker = none := by
  constructor <;> decide

/-- C7 (counterexample): two records with equal versions both match `a`
(`pA` canonically, `aliasPkg` through its alias); in sorted order `pA`
comes first, yet `latest_version` returns the *last* maximal record
`aliasPkg`, so ties are not broken by the first record in sorted order. -/
theorem C7_tie_goes_to_last :
    latestVersion (str "a") [catalogOnlyPkg, aliasPkg] = some aliasPkg ∧
      aliasPkg ≠ catalogOnlyPkg := by
  constructor <;> decide

/-- C9 (counterexample): with no names given, the update command resolves
the empty set and enters `update_package` for nothing, although one package
is installed — so omitting the names does not update every installed
package. -/
theorem C9_no_names_updates_nothing :
    updateCmd ⟨false, fun _ => true⟩ [] [catalogOnlyPkg] [catalogOnlyPkg, aliasPkg] =
        some [] ∧
      ([catalogOnlyPkg] : List Package) ≠ [] := by
  constructor <;> decide

/-! ### Helper lemmas about traces -/

theorem url_eq_none {p : Package} (hp : p.compression = none ∨ p.arch = none) :
    p.url = none := by
  rcases hp with h | h
  · simp [Package.url, h]
  · cases hc : p.compression <;> simp [Package.url, h, hc]

theorem precedes_of_not_mem {a b : Ev} {l : List Ev} (h : b ∉ l) : precedes a b l := by
  intro i hi
  exact absurd (List.get?_mem hi) h

theorem precedes_head {a b : Ev} (hab : a ≠ b) (l : List Ev) : precedes a b (a :: l) := by
  intro i hi
  refine ⟨0, ?_, rfl⟩
  cases i with
  | zero =>
    simp only [List.get?] at hi
    exact absurd (Option.some.inj hi) hab
  | succ n => omega

theorem precedes_append_single {a b : Ev} {l : List Ev} (hb : b ∉ l) (ha : a ∈ l) :
    precedes a b (l ++ [b]) := by
  intro i hi
  obtain ⟨j, hj⟩ := List.mem_iff_get?.mp ha
  obtain ⟨hjlen, -⟩ := List.get?_eq_some.mp hj
  have hilen : ¬ i < l.length := by
    intro hlt
    rw [List.get?_append hlt] at hi
    exact hb (List.get?_mem hi)
  refine ⟨j, by omega, ?_⟩
  rw [List.get?_append hjlen]
  exact hj

/-- C10: a per-package transaction applied to a catalog-only record (no
compression or no arch, hence no artifact URL) panics at the
`package.url().unwrap()` call instead of returning an error — for both
`install_package` (in either mode) and `update_package` — provided the run
reaches the download step (the pending-marker write did not fail first). -/
theorem C10_catalog_only_record_panics (p : Package) (setup : Bool) (env : TxEnv)
    (hp : p.compression = none ∨ p.arch = none) (hw : env.writeOk = true) :
    (installPackage p setup env).result = .panicked ∧
      (updatePackage p env).result = .panicked := by
  have hu : p.url = none := url_eq_none hp
  constructor
  · simp [installPackage, hu, hw]
  · simp [updatePackage, hu, hw]

/-- C10 (witness): the theorem applied to the concrete catalog-only record
with every step outcome available. -/
theorem C10_catalog_only_record_panics_witness :
    (installPackage catalogOnlyPkg false txAllOk).result = .panicked ∧
      (updatePackage catalogOnlyPkg txAllOk).result = .panicked :=
  C10_catalog_only_record_panics catalogOnlyPkg false txAllOk (Or.inl rfl) rfl

/-- C5 (amended): within a non-setup `install_package` transaction whose
initial pending-marker write succeeded, the marker write strictly precedes
every filesystem mutation from the tar archive, the marker deletion
strictly follows the installed-catalog append, after a successful run the
marker does not exist, and after a failed run it exists and holds exactly
the two marker lines (`"install"` and the one formatted record). -/
theorem C5_install_transaction_shape (p : Package) (env : TxEnv)
    (hw : env.writeOk = true) :
    precedes .markerWrite .tarMutation (installPackage p false env).trace ∧
      precedes .catalogAppend .markerDelete (installPackage p false env).trace ∧
      ((installPackage p false env).result = .ok →
        (installPackage p false env).marker = none) ∧
      ((installPackage p false env).result = .err →
        (installPackage p false env).marker = some [str "install", p.format]) := by
  have hmut : Ev.tarMutation ≠ Ev.markerWrite := by decide
  have hdel₁ : Ev.markerDelete ∉ [Ev.markerWrite] := by decide
  have hdelrep : ∀ n : Nat,
      Ev.markerDelete ∉ [Ev.markerWrite] ++ List.replicate n Ev.tarMutation := by
    intro n h
    rcases List.mem_append.mp h with h | h
    · exact hdel₁ h
    · exact absurd (List.mem_replicate.mp h).2 (by decide)
  have hdelapp : ∀ n : Nat,
      Ev.markerDelete ∉
        ([Ev.markerWrite] ++ List.replicate n Ev.tarMutation) ++ [Ev.catalogAppend] := by
    intro n h
    rcases List.mem_append.mp h with h | h
    · exact hdelrep n h
    · simp at h
  have happmem : ∀ n : Nat,
      Ev.catalogAppend ∈
        ([Ev.markerWrite] ++ List.replicate n Ev.tarMutation) ++ [Ev.catalogAppend] := by
    intro n
    exact List.mem_append.mpr (Or.inr (by simp))
  simp only [installPackage, hw]
  cases hu : p.url with
  | none =>
    refine ⟨precedes_of_not_mem ?_, precedes_of_not_mem ?_, ?_, ?_⟩ <;> simp
  | some u =>
    cases hd : env.downloadOk with
    | false =>
      refine ⟨precedes_of_not_mem ?_, precedes_of_not_mem ?_, ?_, ?_⟩ <;> simp
    | true =>
      cases hcmp : p.compression with
      | none =>
        refine ⟨precedes_of_not_mem ?_, precedes_of_not_mem ?_, ?_, ?_⟩ <;> simp
      | some c =>
        cases hdc : env.decompressOk with
        | false =>
          refine ⟨precedes_of_not_mem ?_, precedes_of_not_mem ?_, ?_, ?_⟩ <;> simp
        | true =>
          cases hex : env.extractOk with
          | false =>
            refine ⟨precedes_of_not_mem ?_, precedes_of_not_mem ?_, ?_, ?_⟩ <;> simp
          | true =>
            cases hrec : env.recordOk with
            | false =>
              refine ⟨?_, precedes_of_not_mem (hdelrep env.tarMutations), ?_, ?_⟩
              · simpa using precedes_head hmut.symm (List.replicate env.tarMutations .tarMutation)
              · simp
              · simp
            | true =>
              cases hrm : env.removeOk with
              | false =>
                refine ⟨?_, precedes_of_not_mem (hdelapp env.tarMutations), ?_, ?_⟩
                · have := precedes_head hmut.symm
                    (List.replicate env.tarMutations .tarMutation ++ [Ev.catalogAppend])
                  simpa using this
                · simp
                · simp
              | true =>
                refine ⟨?_, ?_, ?_, ?_⟩
                · have := precedes_head hmut.symm
                    (List.replicate env.tarMutations .tarMutation
                      ++ [Ev.catalogAppend, Ev.markerDelete])
                  simpa using this
                · have := precedes_append_single (hdelapp env.tarMutations)
                    (happmem env.tarMutations)
                  simpa using this
                · simp
                · simp

/-- C5 (witness): the amended theorem applied at the full concrete package
with every step outcome available. -/
theorem C5_install_transaction_shape_witness :
    precedes .markerWrite .tarMutation (installPackage fullPkg false txAllOk).trace ∧
      precedes .catalogAppend .markerDelete (installPackage fullPkg false txAllOk).trace ∧
      ((installPackage fullPkg false txAllOk).result = .ok →
        (installPackage fullPkg false txAllOk).marker = none) ∧
      ((installPackage fullPkg false txAllOk).result = .err →
        (installPackage fullPkg false txAllOk).marker =
          some [str "install", fullPkg.format]) :=
  C5_install_transaction_shape fullPkg txAllOk rfl

/-! ### Helper lemmas for the update command -/

theorem resolveFold_all_found (available : List Package) :
    ∀ (names : List Str) (nf : List Str) (pk : List Package),
      (∀ name ∈ names, (latestVersion name available).isSome) →
      names.foldl
          (fun (acc : List Str × List Package) name =>
            match latestVersion name available with
            | some package => (acc.1, btreeInsert package acc.2)
            | none => (acc.1 ++ [name], acc.2))
          (nf, pk) =
        (nf,
          (names.filterMap (fun n => latestVersion n available)).foldl
            (fun s x => btreeInsert x s) pk) := by
  intro names
  induction names with
  | nil => intro nf pk _; rfl
  | cons n ns ih =>
    intro nf pk h
    obtain ⟨p, hp⟩ := Option.isSome_iff_exists.mp (h n (by simp))
    simp only [List.foldl_cons, List.filterMap_cons, hp]
    exact ih nf (btreeInsert p pk) (fun m hm => h m (by simp [hm]))

theorem updateLoop_all_ok (env : CmdEnv) (installed : List Package)
    (hok : ∀ p, env.updateOk p = true) :
    ∀ (l entered : List Package),
      updateLoop env installed l entered =
        some (entered ++ l.filter (fun p => !(pkgMem p installed))) := by
  intro l
  induction l with
  | nil => intro entered; simp [updateLoop]
  | cons p rest ih =>
    intro entered
    cases hmem : pkgMem p installed with
    | true => simp [updateLoop, hmem, ih]
    | false => simp [updateLoop, hmem, hok p, ih (entered ++ [p])]

/-- C9 (amended): when every requested name resolves and every transaction
succeeds, the update command enters `update_package` exactly for the listed
packages — each resolved to its latest available version — that are not
already installed at that `(name, version)`; in particular, with no names
given, no package is updated. -/
theorem C9_update_enters_resolved_not_installed (env : CmdEnv) (names : List Str)
    (installed available : List Package)
    (hfound : ∀ name ∈ names, (latestVersion name available).isSome)
    (hok : ∀ p, env.updateOk p = true) :
    updateCmd env names installed available =
      some
        ((btreeOfList (names.filterMap (fun n => latestVersion n available))).filter
          (fun p => !(pkgMem p installed))) := by
  unfold updateCmd resolveRequested
  rw [resolveFold_all_found available names [] [] hfound]
  simp only [List.length_nil]
  rw [updateLoop_all_ok env installed hok]
  simp [btreeOfList]

/-- C9 (witness): the amended theorem applied at one listed name resolving
to `msysOld` with nothing installed. -/
theorem C9_update_enters_resolved_not_installed_witness :
    updateCmd ⟨false, fun _ => true⟩ [str "m1"] [] [msysOld] =
      some
        ((btreeOfList ([str "m1"].filterMap (fun n => latestVersion n [msysOld]))).filter
          (fun p => !(pkgMem p []))) :=
  C9_update_enters_resolved_not_installed ⟨false, fun _ => true⟩ [str "m1"] [] [msysOld]
    (by decide) (fun _ => rfl)

/-! ### Order lemmas on strings and the latest-version query -/

theorem strLt_irrefl (a : Str) : strLt a a = false := by
  induction a with
  | nil => rfl
  | cons c cs ih => simp [strLt, ih]

theorem strLt_asymm : ∀ {a b : Str}, strLt a b = true → strLt b a = false := by
  intro a
  induction a with
  | nil =>
    intro b h
    cases b with
    | nil => exact absurd h (by decide)
    | cons d ds => rfl
  | cons c cs ih =>
    intro b h
    cases b with
    | nil => exact absurd h (by simp [strLt])
    | cons d ds =>
      simp only [strLt, Bool.or_eq_true, decide_eq_true_eq, Bool.and_eq_true,
        beq_iff_eq, Bool.or_eq_false_iff, decide_eq_false_iff_not,
        Bool.and_eq_false_iff] at h ⊢
      rcases h with h | ⟨rfl, h⟩
      · exact ⟨asymm h, Or.inl (by simp [ne_of_gt h])⟩
      · exact ⟨lt_irrefl c, Or.inr (ih h)⟩

theorem strLt_trans : ∀ {a b c : Str}, strLt a b = true → strLt b c = true → strLt a c = true := by
  intro a
  induction a with
  | nil =>
    intro b c hab hbc
    cases b with
    | nil => exact absurd hab (by decide)
    | cons d ds =>
      cases c with
      | nil => exact absurd hbc (by simp [strLt])
      | cons e es => rfl
  | cons x xs ih =>
    intro b c hab hbc
    cases b with
    | nil => exact absurd hab (by simp [strLt])
    | cons y ys =>
      cases c with
      | nil => exact absurd hbc (by simp [strLt])
      | cons z zs =>
        simp only [strLt, Bool.or_eq_true, decide_eq_true_eq, Bool.and_eq_true,
          beq_iff_eq] at hab hbc ⊢
        rcases hab with hab | ⟨rfl, hab⟩
        · rcases hbc with hbc | ⟨rfl, hbc⟩
          · exact Or.inl (lt_trans hab hbc)
          · exact Or.inl hab
        · rcases hbc with hbc | ⟨rfl, hbc⟩
          · exact Or.inl hbc
          · exact Or.inr ⟨rfl, ih hab hbc⟩

theorem strLt_connex : ∀ {a b : Str}, strLt a b = false → strLt b a = false → a = b := by
  intro a
  induction a with
  | nil =>
    intro b h1 _
    cases b with
    | nil => rfl
    | cons d ds => exact absurd h1 (by simp [strLt])
  | cons c cs ih =>
    intro b h1 h2
    cases b with
    | nil => exact absurd h2 (by simp [strLt])
    | cons d ds =>
      simp only [strLt, Bool.or_eq_false_iff, decide_eq_false_iff_not,
        Bool.and_eq_false_iff, beq_eq_false_iff_ne, ne_eq] at h1 h2
      obtain ⟨hcd, h1'⟩ := h1
      obtain ⟨hdc, h2'⟩ := h2
      have hcd' : c = d := le_antisymm (not_lt.mp hdc) (not_lt.mp hcd)
      subst hcd'
      rcases h1' with h | h1'
      · exact absurd rfl h
      · rcases h2' with h | h2'
        · exact absurd rfl h
        · rw [ih h1' h2']

theorem strLt_split {a c : Str} (b : Str) (h : strLt a c = true) :
    strLt a b = true ∨ strLt b c = true := by
  cases hab : strLt a b with
  | true => exact Or.inl rfl
  | false =>
    cases hbc : strLt b c with
    | true => exact Or.inr rfl
    | false =>
      cases hba : strLt b a with
      | true => exact absurd (strLt_trans hba h) (by simp [hbc])
      | false =>
        rw [strLt_connex hab hba] at h
        exact absurd h (by simp [hbc])

theorem maxFold_spec :
    ∀ (l : List Package) (b : Package),
      ∃ r,
        l.foldl
            (fun acc x =>
              match acc with
              | none => some x
              | some b => if strLt x.version b.version then some b else some x)
            (some b) =
          some r ∧
        strLt r.version b.version = false ∧
        (r = b ∨ r ∈ l) ∧
        (∀ p ∈ l, strLt r.version p.version = false) ∧
        ((r = b ∧ ∀ p ∈ l, strLt p.version r.version = true) ∨
          ∃ l₁ l₂, l = l₁ ++ r :: l₂ ∧ ∀ p ∈ l₂, strLt p.version r.version = true) := by
  intro l
  induction l with
  | nil =>
    intro b
    exact ⟨b, rfl, strLt_irrefl _, Or.inl rfl, by simp, Or.inl ⟨rfl, by simp⟩⟩
  | cons x xs ih =>
    intro b
    rw [List.foldl_cons]
    by_cases hxb : strLt x.version b.version = true
    · obtain ⟨r, hr, hrb, hmem, hmax, hdec⟩ := ih b
      refine ⟨r, ?_, hrb, ?_, ?_, ?_⟩
      · simpa [hxb] using hr
      · rcases hmem with h | h
        · exact Or.inl h
        · exact Or.inr (List.mem_cons_of_mem _ h)
      · intro p hp
        rcases List.mem_cons.mp hp with rfl | hp
        · cases hrp : strLt r.version p.version with
          | false => rfl
          | true => exact absurd (strLt_trans hrp hxb) (by simp [hrb])
        · exact hmax p hp
      · rcases hdec with ⟨hre, hall⟩ | ⟨l₁, l₂, heq, hall⟩
        · refine Or.inl ⟨hre, ?_⟩
          intro p hp
          rcases List.mem_cons.mp hp with rfl | hp
          · rw [hre]; exact hxb
          · exact hall p hp
        · exact Or.inr ⟨x :: l₁, l₂, by rw [heq, List.cons_append], hall⟩
    · obtain ⟨r, hr, hrx, hmem, hmax, hdec⟩ := ih x
      have hxb' : strLt x.version b.version = false := by
        cases h : strLt x.version b.version with
        | false => rfl
        | true => exact absurd h hxb
      refine ⟨r, ?_, ?_, ?_, ?_, ?_⟩
      · simpa [hxb'] using hr
      · cases h : strLt r.version b.version with
        | false => rfl
        | true =>
          rcases strLt_split x.version h with h' | h'
          · exact absurd h' (by simp [hrx])
          · exact absurd h' (by simp [hxb'])
      · rcases hmem with rfl | h
        · exact Or.inr (List.mem_cons_self _ _)
        · exact Or.inr (List.mem_cons_of_mem _ h)
      · intro p hp
        rcases List.mem_cons.mp hp with rfl | hp
        · exact hrx
        · exact hmax p hp
      · rcases hdec with ⟨hre, hall⟩ | ⟨l₁, l₂, heq, hall⟩
        · subst hre
          exact Or.inr ⟨[], xs, rfl, hall⟩
        · exact Or.inr ⟨x :: l₁, l₂, by rw [heq, List.cons_append], hall⟩

/-- C7 (amended): `latest_version` returns `none` exactly when no record
matches the queried name; when it returns a record, that record matches,
has maximal version among the matching records, and is the *last* of the
maximal ones in the set's sorted iteration order (every matching record
after it has a strictly smaller version). -/
theorem C7_latest_version_last_max (name : Str) (l : List Package) :
    (latestVersion name l = none ↔ ∀ p ∈ l, p.matches name = false) ∧
      (∀ r, latestVersion name l = some r →
        r ∈ l ∧ r.matches name = true ∧
          (∀ p ∈ l, p.matches name = true → strLt r.version p.version = false) ∧
          ∃ l₁ l₂,
            l.filter (fun p => p.matches name) = l₁ ++ r :: l₂ ∧
              ∀ p ∈ l₂, strLt p.version r.version = true) := by
  constructor
  · constructor
    · intro h
      cases hfl : l.filter (fun p => p.matches name) with
      | nil =>
        intro p hp
        cases hm : p.matches name with
        | false => rfl
        | true =>
          have : p ∈ l.filter (fun p => p.matches name) :=
            List.mem_filter.mpr ⟨hp, hm⟩
          rw [hfl] at this
          cases this
      | cons x xs =>
        obtain ⟨r, hr, -⟩ := maxFold_spec xs x
        rw [latestVersion, maxByVersionLast, hfl, List.foldl_cons] at h
        rw [show (match (none : Option Package) with
          | none => some x
          | some b => if strLt x.version b.version then some b else some x) = some x
          from rfl] at h
        rw [hr] at h
        cases h
    · intro h
      have hfl : l.filter (fun p => p.matches name) = [] :=
        List.filter_eq_nil.mpr (fun p hp => by simp [h p hp])
      rw [latestVersion, maxByVersionLast, hfl]
      rfl
  · intro r hr
    cases hfl : l.filter (fun p => p.matches name) with
    | nil =>
      rw [latestVersion, maxByVersionLast, hfl] at hr
      cases hr
    | cons x xs =>
      obtain ⟨r', hfold, hge, hmem, hmax, hdec⟩ := maxFold_spec xs x
      rw [latestVersion, maxByVersionLast, hfl, List.foldl_cons] at hr
      rw [show (match (none : Option Package) with
        | none => some x
        | some b => if strLt x.version b.version then some b else some x) = some x
        from rfl] at hr
      rw [hfold] at hr
      obtain rfl : r' = r := Option.some.inj hr
      have hrfl : r' ∈ l.filter (fun p => p.matches name) := by
        rw [hfl]
        rcases hmem with rfl | h
        · exact List.mem_cons_self _ _
        · exact List.mem_cons_of_mem _ h
      refine ⟨List.mem_of_mem_filter hrfl, List.of_mem_filter (p := fun q => Package.matches q name) hrfl, ?_, ?_⟩
      · intro p hp hpm
        have hpfl : p ∈ l.filter (fun p => p.matches name) :=
          List.mem_filter.mpr ⟨hp, hpm⟩
        rw [hfl] at hpfl
        rcases List.mem_cons.mp hpfl with rfl | hp'
        · exact hge
        · exact hmax p hp'
      · rcases hdec with ⟨hre, hall⟩ | ⟨l₁, l₂, heq, hall⟩
        · subst hre
          exact ⟨[], xs, by simp, hall⟩
        · refine ⟨x :: l₁, l₂, ?_, hall⟩
          rw [List.cons_append, heq]

/-- C7 (witness): the amended theorem applied at the concrete two-record
catalog, where the tie between equal versions goes to the alias record. -/
theorem C7_latest_version_last_max_witness :
    aliasPkg ∈ [catalogOnlyPkg, aliasPkg] ∧ aliasPkg.matches (str "a") = true ∧
      (∀ p ∈ [catalogOnlyPkg, aliasPkg], p.matches (str "a") = true →
        strLt aliasPkg.version p.version = false) ∧
      ∃ l₁ l₂,
        [catalogOnlyPkg, aliasPkg].filter (fun p => p.matches (str "a")) =
            l₁ ++ aliasPkg :: l₂ ∧
          ∀ p ∈ l₂, strLt p.version aliasPkg.version = true :=
  (C7_latest_version_last_max (str "a") [catalogOnlyPkg, aliasPkg]).2 aliasPkg (by decide)


/-! ### String splitting and joining lemmas, and the formatting round-trip -/

theorem intercalate_singleton (sep x : List Char) :
    @List.intercalate Char sep [x] = x := by
  simp [List.intercalate]

theorem intercalate_cons_cons (sep a b : List Char) (l : List (List Char)) :
    @List.intercalate Char sep (a :: b :: l) =
      a ++ sep ++ @List.intercalate Char sep (b :: l) := by
  simp [List.intercalate, List.intersperse]

theorem splitCS_ne_nil : ∀ s : Str, splitCS s ≠ [] := by
  intro s
  induction s using Pwm.splitCS.induct with
  | case1 => simp [splitCS]
  | case2 rest ih => simp [splitCS]
  | case3 c rest h hnil ih => exact absurd hnil ih
  | case4 c rest h r rs hr ih => simp [splitCS, hr]

theorem joinCS_splitCS : ∀ s : Str, joinCS (splitCS s) = s := by
  intro s
  induction s using Pwm.splitCS.induct with
  | case1 => rfl
  | case2 rest ih =>
    cases hr : splitCS rest with
    | nil => exact absurd hr (splitCS_ne_nil rest)
    | cons r rs =>
      rw [hr] at ih
      have h1 : splitCS (',' :: ' ' :: rest) = [] :: r :: rs := by
        rw [show splitCS (',' :: ' ' :: rest) = [] :: splitCS rest from rfl, hr]
      rw [h1]
      rw [show joinCS ([] :: r :: rs) = [] ++ str ", " ++ joinCS (r :: rs) from
        intercalate_cons_cons _ _ _ _]
      rw [ih]
      rfl
  | case3 c rest h hnil ih => exact absurd hnil (splitCS_ne_nil rest)
  | case4 c rest h r rs hr ih =>
    rw [hr] at ih
    have h1 : splitCS (c :: rest) = (c :: r) :: rs := by simp [splitCS, hr]
    rw [h1]
    cases rs with
    | nil =>
      rw [joinCS, intercalate_singleton]
      rw [joinCS, intercalate_singleton] at ih
      rw [ih]
    | cons r2 rs2 =>
      rw [joinCS, intercalate_cons_cons, List.cons_append, List.cons_append]
      rw [joinCS, intercalate_cons_cons] at ih
      rw [ih]

theorem mem_joinCS : ∀ {c : Char} (l : List Str),
    c ∈ joinCS l → c = ',' ∨ c = ' ' ∨ ∃ s ∈ l, c ∈ s := by
  intro c l
  induction l with
  | nil => intro h; cases h
  | cons a l ih =>
    cases l with
    | nil =>
      intro h
      rw [joinCS, intercalate_singleton] at h
      exact Or.inr (Or.inr ⟨a, by simp, h⟩)
    | cons b l2 =>
      intro h
      rw [joinCS, intercalate_cons_cons] at h
      rcases List.mem_append.mp h with h | h
      · rcases List.mem_append.mp h with h | h
        · exact Or.inr (Or.inr ⟨a, by simp, h⟩)
        · have h' : c = ',' ∨ c = ' ' := by
            have hm : c ∈ [',', ' '] := h
            simpa using hm
          rcases h' with rfl | rfl
          · exact Or.inl rfl
          · exact Or.inr (Or.inl rfl)
      · rcases ih h with h | h | ⟨s, hs, hcs⟩
        · exact Or.inl h
        · exact Or.inr (Or.inl h)
        · exact Or.inr (Or.inr ⟨s, List.mem_cons_of_mem _ hs, hcs⟩)

theorem joinCS_eq_plus : ∀ {l : List Str}, joinCS l = str "+" → l = [str "+"] := by
  intro l h
  cases l with
  | nil => cases h
  | cons a l2 =>
    cases l2 with
    | nil =>
      rw [joinCS, intercalate_singleton] at h
      rw [h]
    | cons b l3 =>
      exfalso
      rw [joinCS, intercalate_cons_cons] at h
      have hlen := congrArg List.length h
      rw [List.length_append, List.length_append] at hlen
      rw [show (str ", ").length = 2 from rfl, show (str "+").length = 1 from rfl] at hlen
      omega

theorem splitTab_joinTab (cols : List Str) (h : ∀ c ∈ cols, '\t' ∉ c)
    (hne : cols ≠ []) : splitTab (joinTab cols) = cols :=
  List.splitOn_intercalate cols '\t' h hne


theorem findIdx?_none' {α : Type} {p : α → Bool} :
    ∀ (l : List α) (i : Nat), (∀ x ∈ l, p x = false) → List.findIdx? p l i = none := by
  intro l
  induction l with
  | nil => intro i _; rfl
  | cons x xs ih =>
    intro i h
    rw [List.findIdx?_cons, h x (by simp), if_neg (by simp)]
    exact ih (i + 1) (fun y hy => h y (by simp [hy]))

theorem findIdx?_marker' {α : Type} {p : α → Bool} :
    ∀ (l₁ : List α) (a : α) (l₂ : List α) (i : Nat),
      (∀ x ∈ l₁, p x = false) → p a = true →
      List.findIdx? p (l₁ ++ a :: l₂) i = some (i + l₁.length) := by
  intro l₁
  induction l₁ with
  | nil =>
    intro a l₂ i _ ha
    rw [List.nil_append, List.findIdx?_cons, ha, if_pos rfl]
    simp
  | cons x xs ih =>
    intro a l₂ i h ha
    rw [List.cons_append, List.findIdx?_cons, h x (by simp), if_neg (by simp)]
    rw [ih a l₂ (i + 1) (fun y hy => h y (by simp [hy])) ha]
    simp
    omega

theorem fromName_rname' : ∀ r : Repository, Repository.fromName r.rname = some r := by
  intro r
  cases r <;> decide

theorem from_ext_ext' : ∀ c : Compression,
    Compression.from_extension c.extension = some c := by
  intro c
  cases c <;> decide


theorem rname_ne_plus' : ∀ r : Repository, r.rname ≠ str "+" := by
  intro r
  cases r <;> decide

theorem ext_ne_plus' : ∀ c : Compression, c.extension ≠ str "+" := by
  intro c
  cases c <;> decide

theorem tab_rname' : ∀ r : Repository, '\t' ∉ r.rname := by
  intro r
  cases r <;> decide

theorem tab_ext' : ∀ c : Compression, '\t' ∉ c.extension := by
  intro c
  cases c <;> decide

/-- C4 (amended): for every package whose fields are in canonical form (no
tab inside any field, no field that re-parses as the `"+"` marker, no absent
field in the middle of the column list), parsing the formatted line succeeds
and formatting the result reproduces the line:
`format (parse (format p)) = format p`. -/
theorem C4_format_parse_format (p : Package) (hc : p.canonical) :
    ∃ q, Package.tryFrom p.format = some q ∧ q.format = p.format := by
  obtain ⟨hn, hv, ha, hd, hn5, hv5, ha5, hac, hda⟩ := hc
  have hnm_tab : '\t' ∉ joinCS p.names := by
    intro hmem
    rcases mem_joinCS p.names hmem with h | h | ⟨s, hs, hcs⟩
    · cases h
    · cases h
    · exact hn s hs hcs
  have hnm_plus : joinCS p.names ≠ str "+" := fun h => hn5 (joinCS_eq_plus h)
  cases hcomp : p.compression with
  | none =>
    have harch : p.arch = none := by
      cases h : p.arch with
      | none => rfl
      | some a => exact absurd (hac (by simp [h])) (by simp [hcomp])
    have hdeps : p.dependencies = none := by
      cases h : p.dependencies with
      | none => rfl
      | some ds => exact absurd (hda (by simp [h])) (by simp [harch])
    have hfmt : p.format = joinTab [p.repository.rname, joinCS p.names, p.version] := by
      simp [Package.format, hcomp, harch, hdeps]
    have hsp : splitTab p.format = [p.repository.rname, joinCS p.names, p.version] := by
      rw [hfmt]
      refine splitTab_joinTab _ ?_ (by simp)
      intro c hcm
      simp only [List.mem_cons, List.not_mem_nil, or_false] at hcm
      rcases hcm with rfl | rfl | rfl
      · exact tab_rname' _
      · exact hnm_tab
      · exact hv
    refine ⟨⟨p.repository, splitCS (joinCS p.names), p.version, none, none, none⟩, ?_, ?_⟩
    · simp only [Package.tryFrom, hsp, List.length_cons, List.length_nil]
      rw [if_neg (by omega)]
      simp only [List.getD_cons_zero, List.getD_cons_succ, fromName_rname']
      simp only [List.get?_cons_succ, List.get?_cons_zero, List.get?_nil]
      rw [findIdx?_none' _ 0 ?_]
      · simp
      · intro x hx
        simp only [List.mem_cons, List.not_mem_nil, or_false] at hx
        rcases hx with rfl | rfl | rfl
        · exact beq_eq_false_iff_ne.mpr (rname_ne_plus' _)
        · exact beq_eq_false_iff_ne.mpr hnm_plus
        · exact beq_eq_false_iff_ne.mpr hv5
    · rw [hfmt]
      simp [Package.format, joinCS_splitCS]
  | some cext =>
    cases harch : p.arch with
    | none =>
      have hdeps : p.dependencies = none := by
        cases h : p.dependencies with
        | none => rfl
        | some ds => exact absurd (hda (by simp [h])) (by simp [harch])
      have hfmt : p.format =
          joinTab [p.repository.rname, joinCS p.names, p.version, cext.extension] := by
        simp [Package.format, hcomp, harch, hdeps]
      have hsp : splitTab p.format =
          [p.repository.rname, joinCS p.names, p.version, cext.extension] := by
        rw [hfmt]
        refine splitTab_joinTab _ ?_ (by simp)
        intro c hcm
        simp only [List.mem_cons, List.not_mem_nil, or_false] at hcm
        rcases hcm with rfl | rfl | rfl | rfl
        · exact tab_rname' _
        · exact hnm_tab
        · exact hv
        · exact tab_ext' _
      refine ⟨⟨p.repository, splitCS (joinCS p.names), p.version, some cext,
        none, none⟩, ?_, ?_⟩
      · simp only [Package.tryFrom, hsp, List.length_cons, List.length_nil]
        rw [if_neg (by omega)]
        simp only [List.getD_cons_zero, List.getD_cons_succ, fromName_rname']
        simp only [List.get?_cons_succ, List.get?_cons_zero, List.get?_nil]
        rw [from_ext_ext']
        rw [findIdx?_none' _ 0 ?_]
        · simp
        · intro x hx
          simp only [List.mem_cons, List.not_mem_nil, or_false] at hx
          rcases hx with rfl | rfl | rfl | rfl
          · exact beq_eq_false_iff_ne.mpr (rname_ne_plus' _)
          · exact beq_eq_false_iff_ne.mpr hnm_plus
          · exact beq_eq_false_iff_ne.mpr hv5
          · exact beq_eq_false_iff_ne.mpr (ext_ne_plus' _)
      · rw [hfmt]
        simp [Package.format, joinCS_splitCS]
    | some aarch =>
      have htab_a : '\t' ∉ aarch := ha aarch (by rw [harch]; rfl)
      have hplus_a : aarch ≠ str "+" := by
        intro h
        rw [h] at harch
        exact ha5 harch
      cases hdeps : p.dependencies with
      | none =>
        have hfmt : p.format = joinTab [p.repository.rname, joinCS p.names,
            p.version, cext.extension, aarch] := by
          simp [Package.format, hcomp, harch, hdeps]
        have hsp : splitTab p.format = [p.repository.rname, joinCS p.names,
            p.version, cext.extension, aarch] := by
          rw [hfmt]
          refine splitTab_joinTab _ ?_ (by simp)
          intro c hcm
          simp only [List.mem_cons, List.not_mem_nil, or_false] at hcm
          rcases hcm with rfl | rfl | rfl | rfl | rfl
          · exact tab_rname' _
          · exact hnm_tab
          · exact hv
          · exact tab_ext' _
          · exact htab_a
        refine ⟨⟨p.repository, splitCS (joinCS p.names), p.version, some cext,
          some aarch, none⟩, ?_, ?_⟩
        · simp only [Package.tryFrom, hsp, List.length_cons, List.length_nil]
          rw [if_neg (by omega)]
          simp only [List.getD_cons_zero, List.getD_cons_succ, fromName_rname']
          simp only [List.get?_cons_succ, List.get?_cons_zero, List.get?_nil]
          rw [from_ext_ext']
          rw [findIdx?_none' _ 0 ?_]
          · simp
          · intro x hx
            simp only [List.mem_cons, List.not_mem_nil, or_false] at hx
            rcases hx with rfl | rfl | rfl | rfl | rfl
            · exact beq_eq_false_iff_ne.mpr (rname_ne_plus' _)
            · exact beq_eq_false_iff_ne.mpr hnm_plus
            · exact beq_eq_false_iff_ne.mpr hv5
            · exact beq_eq_false_iff_ne.mpr (ext_ne_plus' _)
            · exact beq_eq_false_iff_ne.mpr hplus_a
        · rw [hfmt]
          simp [Package.format, joinCS_splitCS]
      | some deps =>
        have htab_d : ∀ d ∈ deps, '\t' ∉ d := hd deps (by rw [hdeps]; rfl)
        have hfmt : p.format = joinTab (p.repository.rname :: joinCS p.names ::
            p.version :: cext.extension :: aarch :: str "+" :: deps) := by
          simp [Package.format, hcomp, harch, hdeps]
        have hsp : splitTab p.format = p.repository.rname :: joinCS p.names ::
            p.version :: cext.extension :: aarch :: str "+" :: deps := by
          rw [hfmt]
          refine splitTab_joinTab _ ?_ (by simp)
          intro c hcm
          simp only [List.mem_cons] at hcm
          rcases hcm with rfl | rfl | rfl | rfl | rfl | rfl | hcm
          · exact tab_rname' _
          · exact hnm_tab
          · exact hv
          · exact tab_ext' _
          · exact htab_a
          · decide
          · exact htab_d c hcm
        refine ⟨⟨p.repository, splitCS (joinCS p.names), p.version, some cext,
          some aarch, some deps⟩, ?_, ?_⟩
        · simp only [Package.tryFrom, hsp, List.length_cons, List.length_nil]
          rw [if_neg (by omega)]
          simp only [List.getD_cons_zero, List.getD_cons_succ, fromName_rname']
          simp only [List.get?_cons_succ, List.get?_cons_zero, List.get?_nil]
          rw [from_ext_ext']
          rw [show (p.repository.rname :: joinCS p.names :: p.version ::
            cext.extension :: aarch :: str "+" :: deps) =
            [p.repository.rname, joinCS p.names, p.version, cext.extension, aarch]
              ++ str "+" :: deps from rfl]
          rw [findIdx?_marker' _ _ _ 0 ?_ (by simp)]
          · have hdrop : List.drop
                (0 + ([p.repository.rname, joinCS p.names, p.version, cext.extension,
                  aarch] : List Str).length + 1)
                ([p.repository.rname, joinCS p.names, p.version, cext.extension, aarch]
                  ++ str "+" :: deps) = deps := by
              rw [show ([p.repository.rname, joinCS p.names, p.version, cext.extension,
                aarch] ++ str "+" :: deps : List Str) =
                [p.repository.rname, joinCS p.names, p.version, cext.extension, aarch,
                  str "+"] ++ deps from rfl]
              rw [show (0 + ([p.repository.rname, joinCS p.names, p.version,
                cext.extension, aarch] : List Str).length + 1 : Nat) =
                ([p.repository.rname, joinCS p.names, p.version, cext.extension, aarch,
                  str "+"] : List Str).length from by simp]
              exact List.drop_left _ _
            simp only [Option.map_some', hdrop]
          · intro x hx
            simp only [List.mem_cons, List.not_mem_nil, or_false] at hx
            rcases hx with rfl | rfl | rfl | rfl | rfl
            · exact beq_eq_false_iff_ne.mpr (rname_ne_plus' _)
            · exact beq_eq_false_iff_ne.mpr hnm_plus
            · exact beq_eq_false_iff_ne.mpr hv5
            · exact beq_eq_false_iff_ne.mpr (ext_ne_plus' _)
            · exact beq_eq_false_iff_ne.mpr hplus_a
        · rw [hfmt]
          simp [Package.format, joinCS_splitCS]

/-- C4 (counterexample): for the package with an arch but no compression,
formatting produces `msys\tname\tversion\tany`, whose fourth column fails
to resolve as a compression extension, so parsing the formatted line fails:
the round-trip does not hold for every `Package` value. -/
theorem C4_roundtrip_fails_without_compression :
    Package.tryFrom
        (Package.format ⟨.msys, [str "name"], str "version", none, some (str "any"), none⟩) =
      none := by
  decide

/-- C4 (witness): the amended theorem applied at the concrete canonical
package. -/
theorem C4_format_parse_format_witness :
    ∃ q, Package.tryFrom fullPkg.format = some q ∧ q.format = fullPkg.format :=
  C4_format_parse_format fullPkg
    (by
      refine ⟨?_, ?_, ?_, ?_, ?_, ?_, ?_, ?_, ?_⟩ <;> decide)


/-! ### Termination of the dependency resolver -/

theorem latestVersion_mem {name : Str} {l : List Package} {r : Package}
    (h : latestVersion name l = some r) : r ∈ l := by
  rw [latestVersion] at h
  cases hfl : l.filter (fun p => p.matches name) with
  | nil => rw [maxByVersionLast, hfl] at h; cases h
  | cons x xs =>
    rw [maxByVersionLast, hfl, List.foldl_cons] at h
    obtain ⟨r', hfold, -, hmem, -, -⟩ := maxFold_spec xs x
    rw [show (match (none : Option Package) with
      | none => some x
      | some b => if strLt x.version b.version then some b else some x) = some x
      from rfl] at h
    rw [hfold] at h
    obtain rfl := Option.some.inj h
    have hrf : r' ∈ l.filter (fun p => p.matches name) := by
      rw [hfl]
      rcases hmem with rfl | hm
      · exact List.mem_cons_self _ _
      · exact List.mem_cons_of_mem _ hm
    exact List.mem_of_mem_filter hrf

theorem missingDeps_subset {p : Package} {installed processed available : List Package}
    {ds : List Package} (h : missingDeps p installed processed available = some ds) :
    ∀ d ∈ ds, d ∈ available := by
  intro d hd
  rw [missingDeps] at h
  cases hpd : p.dependencies with
  | none => rw [hpd] at h; cases h
  | some deps =>
    rw [hpd] at h
    simp only [Option.some_bind] at h
    split at h
    · cases h
    · obtain rfl := Option.some.inj h
      have hd2 := List.mem_of_mem_filter hd
      obtain ⟨dep, -, hdep⟩ := List.mem_filterMap.mp hd2
      exact latestVersion_mem hdep

theorem pkgEq_refl (d : Package) : pkgEq d d = true := by
  simp [pkgEq]

theorem foldl_front_mem {A : Finset Package} :
    ∀ (ds dq : List Package), (∀ x ∈ dq, x ∈ A) → (∀ d ∈ ds, d ∈ A) →
      ∀ x ∈ ds.foldl (fun dq d => d :: dq.filter (fun y => !(pkgEq y d))) dq, x ∈ A := by
  intro ds
  induction ds with
  | nil => intro dq hdq _ x hx; exact hdq x hx
  | cons d ds ih =>
    intro dq hdq hds x hx
    rw [List.foldl_cons] at hx
    refine ih _ ?_ (fun e he => hds e (by simp [he])) x hx
    intro y hy
    rcases List.mem_cons.mp hy with rfl | hy
    · exact hds y (by simp)
    · exact hdq y (List.mem_of_mem_filter hy)

theorem foldl_front_count (roots : List Package) :
    ∀ (ds dq : List Package),
      (∀ y : Package, List.count y dq ≤ max (List.count y roots) 1) →
      ∀ y : Package,
        List.count y
            (ds.foldl (fun dq d => d :: dq.filter (fun z => !(pkgEq z d))) dq) ≤
          max (List.count y roots) 1 := by
  intro ds
  induction ds with
  | nil => intro dq h y; exact h y
  | cons d ds ih =>
    intro dq h y
    rw [List.foldl_cons]
    refine ih _ ?_ y
    intro z
    rw [List.count_cons]
    by_cases hzd : d = z
    · subst hzd
      have hz0 : List.count d (dq.filter (fun w => !(pkgEq w d))) = 0 := by
        rw [List.count_eq_zero]
        intro hmem
        have hw := List.of_mem_filter (p := fun w => !(pkgEq w d)) hmem
        simp [pkgEq_refl] at hw
      rw [hz0]
      simp
    · rw [if_neg (by simpa using hzd), Nat.add_zero]
      exact le_trans ((List.filter_sublist dq).count_le z) (h z)

theorem RInv_init (roots available : List Package) :
    RInv roots available ⟨roots, [], []⟩ := by
  constructor
  · intro x hx
    exact Finset.mem_union_left _ (List.mem_toFinset.mpr hx)
  · intro x
    exact le_max_left _ _

theorem mem_listsUpTo (A : Finset Package) :
    ∀ (n : Nat) (l : List Package), l.length ≤ n → (∀ x ∈ l, x ∈ A) →
      l ∈ listsUpTo A n := by
  intro n
  induction n with
  | zero =>
    intro l hl _
    rw [List.length_eq_zero.mp (Nat.le_zero.mp hl)]
    simp [listsUpTo]
  | succ n ih =>
    intro l hl hmem
    cases l with
    | nil => simp [listsUpTo]
    | cons x xs =>
      rw [listsUpTo]
      refine Finset.mem_union_right _ ?_
      refine Finset.mem_image.mpr ⟨(x, xs), ?_, rfl⟩
      refine Finset.mem_product.mpr
        ⟨hmem x (by simp), ih xs (by simpa using hl) (fun y hy => hmem y (by simp [hy]))⟩

theorem deque_length_le (roots available : List Package) (s : RState)
    (hinv : RInv roots available s) :
    s.deque.length ≤ dequeBound roots available := by
  obtain ⟨hmem, hcount⟩ := hinv
  have hsub : s.deque.toFinset ⊆ pkgUniverse roots available :=
    fun x hx => hmem x (List.mem_toFinset.mp hx)
  have h1 : s.deque.length = ∑ x ∈ s.deque.toFinset, List.count x s.deque :=
    (List.sum_toFinset_count_eq_length s.deque).symm
  have h2 : ∑ x ∈ s.deque.toFinset, List.count x s.deque =
      ∑ x ∈ pkgUniverse roots available, List.count x s.deque := by
    refine Finset.sum_subset hsub ?_
    intro x _ hx
    rw [List.count_eq_zero]
    intro hmem2
    exact hx (List.mem_toFinset.mpr hmem2)
  have h3 : ∑ x ∈ pkgUniverse roots available, List.count x s.deque ≤
      ∑ x ∈ pkgUniverse roots available, (List.count x roots + 1) := by
    refine Finset.sum_le_sum ?_
    intro x _
    have := hcount x
    omega
  have h4 : ∑ x ∈ pkgUniverse roots available, (List.count x roots + 1) =
      (∑ x ∈ pkgUniverse roots available, List.count x roots) +
        (pkgUniverse roots available).card := by
    rw [Finset.sum_add_distrib, Finset.sum_const, Nat.smul_one_eq_cast]
    simp
  have h5 : ∑ x ∈ pkgUniverse roots available, List.count x roots ≤ roots.length := by
    have he : ∑ x ∈ pkgUniverse roots available ∩ roots.toFinset, List.count x roots =
        ∑ x ∈ pkgUniverse roots available, List.count x roots := by
      refine Finset.sum_subset Finset.inter_subset_left ?_
      intro x _ hx
      rw [List.count_eq_zero]
      intro hmem2
      exact hx (Finset.mem_inter.mpr ⟨by assumption, List.mem_toFinset.mpr hmem2⟩)
    rw [← he]
    calc ∑ x ∈ pkgUniverse roots available ∩ roots.toFinset, List.count x roots
        ≤ ∑ x ∈ roots.toFinset, List.count x roots := by
          refine Finset.sum_le_sum_of_subset_of_nonneg Finset.inter_subset_right ?_
          intro i _ _
          exact Nat.zero_le _
      _ = roots.length := List.sum_toFinset_count_eq_length roots
  rw [dequeBound]
  omega


theorem snapshot_mem_snapUniverse (roots available : List Package) (s : RState)
    (hinv : RInv roots available s) :
    joinCS (s.deque.map Package.pname) ∈ snapUniverse roots available := by
  rw [snapUniverse]
  refine Finset.mem_image.mpr ⟨s.deque, ?_, rfl⟩
  exact mem_listsUpTo _ _ _ (deque_length_le roots available s hinv) hinv.1

theorem filter_contains_mono (S : Finset Str) (snaps : List Str) (t : Str) :
    (S.filter (fun u => snaps.contains u = true)).card ≤
      (S.filter (fun u => (t :: snaps).contains u = true)).card := by
  apply Finset.card_le_card
  intro u hu
  rw [Finset.mem_filter] at hu ⊢
  refine ⟨hu.1, ?_⟩
  rw [List.contains_cons, hu.2, Bool.or_true]

theorem filter_contains_grow (S : Finset Str) (snaps : List Str) (t : Str)
    (htS : t ∈ S) (ht : snaps.contains t = false) :
    (S.filter (fun u => snaps.contains u = true)).card + 1 ≤
      (S.filter (fun u => (t :: snaps).contains u = true)).card := by
  have hss : S.filter (fun u => snaps.contains u = true) ⊂
      S.filter (fun u => (t :: snaps).contains u = true) := by
    rw [Finset.ssubset_def]
    constructor
    · intro u hu
      rw [Finset.mem_filter] at hu ⊢
      refine ⟨hu.1, ?_⟩
      rw [List.contains_cons, hu.2, Bool.or_true]
    · intro hsub
      have htmem : t ∈ S.filter (fun u => (t :: snaps).contains u = true) := by
        rw [Finset.mem_filter]
        refine ⟨htS, ?_⟩
        rw [List.contains_cons, beq_self_eq_true, Bool.true_or]
      have := hsub htmem
      rw [Finset.mem_filter, ht] at this
      exact absurd this.2 (by simp)
  exact Finset.card_lt_card hss

theorem measure_arith {K c c' B len len' : Nat} (h1 : c + 1 ≤ c') (h2 : c' ≤ K)
    (h3 : len' ≤ B) : (K - c') * (B + 1) + len' < (K - c) * (B + 1) + len := by
  have ha : K - c' + 1 ≤ K - c := by omega
  calc (K - c') * (B + 1) + len'
      ≤ (K - c') * (B + 1) + B := Nat.add_le_add_left h3 _
    _ < (K - c') * (B + 1) + (B + 1) := Nat.add_lt_add_left (Nat.lt_succ_self B) _
    _ = (K - c' + 1) * (B + 1) := (Nat.succ_mul _ _).symm
    _ ≤ (K - c) * (B + 1) := Nat.mul_le_mul_right _ ha
    _ ≤ (K - c) * (B + 1) + len := Nat.le_add_right _ _

theorem measure_arith_pop {K c c' B len' : Nat} (h1 : c ≤ c') :
    (K - c') * (B + 1) + len' < (K - c) * (B + 1) + (len' + 1) := by
  have hm : (K - c') * (B + 1) ≤ (K - c) * (B + 1) :=
    Nat.mul_le_mul_right _ (Nat.sub_le_sub_left h1 K)
  calc (K - c') * (B + 1) + len'
      ≤ (K - c) * (B + 1) + len' := Nat.add_le_add_right hm _
    _ < (K - c) * (B + 1) + (len' + 1) := Nat.add_lt_add_left (Nat.lt_succ_self _) _

theorem step_preserves (roots installed available : List Package)
    (p : Package) (rest proc : List Package) (snaps : List Str)
    (hinv : RInv roots available ⟨p :: rest, proc, snaps⟩) :
    RInv roots available (stepDeps installed available ⟨p :: rest, proc, snaps⟩) ∧
      measureR roots available (stepDeps installed available ⟨p :: rest, proc, snaps⟩) <
        measureR roots available ⟨p :: rest, proc, snaps⟩ := by
  obtain ⟨hmem, hcount⟩ := hinv
  have hsnapS : joinCS ((p :: rest).map Package.pname) ∈ snapUniverse roots available :=
    snapshot_mem_snapUniverse roots available ⟨p :: rest, proc, snaps⟩ ⟨hmem, hcount⟩
  simp only [stepDeps]
  by_cases hif : (!(snaps.contains (joinCS ((p :: rest).map Package.pname))) &&
      (missingDeps p installed proc available).isSome) = true
  · have hif2 := hif
    rw [Bool.and_eq_true] at hif2
    obtain ⟨hl, hr⟩ := hif2
    have hnew : snaps.contains (joinCS ((p :: rest).map Package.pname)) = false := by
      cases h : snaps.contains (joinCS ((p :: rest).map Package.pname)) with
      | false => rfl
      | true => rw [h] at hl; cases hl
    obtain ⟨ds₀, hds₀⟩ := Option.isSome_iff_exists.mp hr
    rw [if_pos hif, if_pos hl]
    have hinv' : RInv roots available
        ⟨(((missingDeps p installed proc available).getD []).mergeSort
            (fun a b => decide (depCountKey a ≤ depCountKey b))).foldl
          (fun dq d => d :: dq.filter (fun x => !(pkgEq x d))) (p :: rest),
          proc, joinCS ((p :: rest).map Package.pname) :: snaps⟩ := by
      constructor
      · refine foldl_front_mem _ _ hmem ?_
        intro d hd
        rw [List.mem_mergeSort] at hd
        rw [hds₀] at hd
        simp only [Option.getD_some] at hd
        exact Finset.mem_union_right _
          (List.mem_toFinset.mpr (missingDeps_subset hds₀ d hd))
      · exact foldl_front_count roots _ _ hcount
    refine ⟨hinv', ?_⟩
    simp only [measureR]
    refine measure_arith ?_ ?_ ?_
    · exact filter_contains_grow _ snaps _ hsnapS hnew
    · exact Finset.card_filter_le _ _
    · exact deque_length_le roots available _ hinv'
  · rw [if_neg hif]
    have hinv' : RInv roots available
        ⟨rest, if pkgMem p proc = true then proc else proc ++ [p],
          if (!(snaps.contains (joinCS ((p :: rest).map Package.pname)))) = true
          then joinCS ((p :: rest).map Package.pname) :: snaps else snaps⟩ := by
      constructor
      · intro x hx
        exact hmem x (List.mem_cons_of_mem _ hx)
      · intro x
        have h1 := hcount x
        rw [List.count_cons] at h1
        show List.count x rest ≤ max (List.count x roots) 1
        omega
    refine ⟨hinv', ?_⟩
    cases hnew : snaps.contains (joinCS ((p :: rest).map Package.pname)) with
    | true =>
      simp only [hnew, Bool.not_true, if_neg (by simp : ¬ (false = true))]
      simp only [measureR]
      rw [List.length_cons]
      exact measure_arith_pop (Nat.le_refl _)
    | false =>
      simp only [hnew, Bool.not_false, if_pos rfl]
      simp only [measureR]
      rw [List.length_cons]
      exact measure_arith_pop (filter_contains_mono _ snaps _)

theorem runDeps_total (roots installed available : List Package) :
    ∀ (n : Nat) (s : RState), RInv roots available s →
      measureR roots available s < n →
      (runDeps installed available n s).isSome = true := by
  intro n
  induction n with
  | zero => intro s _ h; omega
  | succ n ih =>
    intro s hinv hm
    obtain ⟨dq, proc, snaps⟩ := s
    cases dq with
    | nil => rfl
    | cons p rest =>
      rw [runDeps]
      obtain ⟨hinv', hdec⟩ := step_preserves roots installed available p rest proc snaps hinv
      exact ih _ hinv' (by omega)

/-- C6: for every finite sequence of root packages and finite installed and
available sets, the resolver's loop terminates, including on cyclic
dependency graphs: the fueled loop reaches the empty deque (returning the
processed list) once given the initial measure plus one as fuel, because
every iteration either records a previously unseen deque snapshot (of which
only finitely many exist) or pops the front element. -/
theorem C6_resolver_terminates (roots installed available : List Package) :
    ∃ n : Nat, (runDeps installed available n ⟨roots, [], []⟩).isSome = true :=
  ⟨measureR roots available ⟨roots, [], []⟩ + 1,
    runDeps_total roots installed available _ _ (RInv_init roots available)
      (Nat.lt_succ_self _)⟩


end Pwm
